import Mathlib

/-!
Verification development for `year_collator.py` (iFEED data consolidation tool).

The Python source is shallowly embedded below.  Half-degree-aligned
latitude/longitude coordinates are represented by their doubled values as
integers (`lat2 = 2 * latitude`), which captures exactly the tables whose
coordinates lie on a half-degree mesh; variable values are rationals.
Filesystem contents are explicit lists, external tools (pandas, iris,
nco) are modelled by the data they produce or by explicit effect lists,
and Python exceptions are modelled with `Except`.
-/

namespace YearCollator

/-- One parsed row of a raw ascii table (one gridcell).  `lat2`/`lon2` are the
latitude/longitude doubled (half-degree-aligned coordinates, as in the mesh of
`readascii`); `val c` is the numeric entry of column `Vc`. -/
structure RawRow where
  year : Int
  lat2 : Int
  lon2 : Int
  val : Nat → Rat

/-- One parsed raw ascii table: the column numbers present in the header
(`cols = [1, …, 49]` for a full table) and the data rows, in file order.
This is the result of `pd.read_csv(path, sep=' ')` in `readascii`. -/
structure RawTable where
  cols : List Nat
  rows : List RawRow

/-- Minimum of the doubled latitudes, `df['V2'].min()` (`s` in `readascii`).
The `[]` case is unreachable for tables that `readascii` completes on. -/
def minLat2 (rows : List RawRow) : Int :=
  match rows with
  | [] => 0
  | r :: rs => rs.foldl (fun m x => min m x.lat2) r.lat2

/-- Maximum of the doubled latitudes, `df['V2'].max()` (`n` in `readascii`). -/
def maxLat2 (rows : List RawRow) : Int :=
  match rows with
  | [] => 0
  | r :: rs => rs.foldl (fun m x => max m x.lat2) r.lat2

/-- Minimum of the doubled longitudes, `df['V3'].min()` (`w` in `readascii`). -/
def minLon2 (rows : List RawRow) : Int :=
  match rows with
  | [] => 0
  | r :: rs => rs.foldl (fun m x => min m x.lon2) r.lon2

/-- Maximum of the doubled longitudes, `df['V3'].max()` (`e` in `readascii`). -/
def maxLon2 (rows : List RawRow) : Int :=
  match rows with
  | [] => 0
  | r :: rs => rs.foldl (fun m x => max m x.lon2) r.lon2

/-- The year entry of the second row, `df['V1'][1]` (pandas label `1` is the
second row of the default range index).  The fallback is unreachable when the
table has at least two rows. -/
def yearAt1 (rows : List RawRow) : Int :=
  match rows with
  | _ :: r1 :: _ => r1.year
  | _ => 0

/-- The mesh index of a row: `np.where(latitude.points == lat)` resolves to
`lat2 - s2` on the doubled-integer mesh `s2, s2+1, …, n2` (and likewise for
longitude), exactly the linspace index used at line 423-425 of the source. -/
def cellPos (s2 w2 : Int) (r : RawRow) : Int × Int :=
  (r.lat2 - s2, r.lon2 - w2)

/-- The row loop of `readascii` for one variable column `c`: starting from
grid `g`, write every row's column-`c` value at that row's mesh cell
(`cube_layer.data[0, a, b, …] = row[col]`), in file order. -/
def writeRows (c : Nat) (s2 w2 : Int) (rows : List RawRow)
    (g : Int × Int → Rat) : Int × Int → Rat :=
  rows.foldl (fun g r => fun p => if p = cellPos s2 w2 r then r.val c else g p) g

/-- One produced per-variable array (an iris cube of `readascii`): the column
number, the time coordinate, the grid extents, the cell data and the mask.
The cell data starts as the fill `-99` (`grid.fill(-99)`) and the mask is
`np.ma.masked_equal(data, -99.)`. -/
structure Cube where
  colNum : Nat
  year : Int
  nLat : Nat
  nLon : Nat
  val : Int × Int → Rat
  masked : Int × Int → Bool

/-- Builds the cube of one variable column: allocate the `-99`-filled grid
spanning the observed min/max extents, write every row, then mask every cell
equal to `-99`. -/
def mkCube (t : RawTable) (c : Nat) : Cube :=
  let s2 := minLat2 t.rows
  let w2 := minLon2 t.rows
  let data := writeRows c s2 w2 t.rows (fun _ => -99)
  { colNum := c
    year := yearAt1 t.rows
    nLat := (maxLat2 t.rows - s2).toNat + 1
    nLon := (maxLon2 t.rows - w2).toNat + 1
    val := data
    masked := fun p => decide (data p = -99) }

/-- The GridAssembler `readascii(path, dimvals)` on an already-parsed table
(the `pd.read_csv` parse is the `RawTable`; the scenario codes `dimvals` and
the filename-derived production/irrigation scalars are metadata that the
claims do not touch and are omitted).  Fidelity notes, from the source:
a table with fewer than two rows raises `KeyError` at `df['V1'][1]`; a table
mixing several years prints the warning and then raises `UnboundLocalError`
at line 413 because the local `time` coordinate is only assigned in the
single-year branch; otherwise one cube is built per column whose number
exceeds 3. -/
def readascii (t : RawTable) : Except String (List Cube) :=
  if 2 ≤ t.rows.length then
    if t.rows.all (fun r => r.year == yearAt1 t.rows) then
      .ok ((t.cols.filter (fun c => 3 < c)).map (mkCube t))
    else
      .error "UnboundLocalError: local variable time referenced before assignment"
  else
    .error "KeyError: 1"

/-! ## Output path allocation (`nextPath`) -/

/-- The exponential phase of `nextPath`: double `i` while the candidate path
exists (`while os.path.exists(path_pattern % i): i = i * 2`).  The probe
`occupied i` is `os.path.exists(path_pattern % i)`; `fuel` makes the loop
structurally recursive and is irrelevant once large enough. -/
def expSearch (occupied : Nat → Bool) : Nat → Nat → Nat
  | 0, i => i
  | fuel + 1, i => if occupied i then expSearch occupied fuel (i * 2) else i

/-- The binary-search phase of `nextPath`: narrow the interval `(a..b]` until
`a + 1 = b`, keeping `a` occupied and `b` free. -/
def binSearch (occupied : Nat → Bool) : Nat → Nat → Nat → Nat
  | 0, _, b => b
  | fuel + 1, a, b =>
    if a + 1 < b then
      let c := (a + b) / 2
      if occupied c then binSearch occupied fuel c b else binSearch occupied fuel a c
    else b

/-- `nextPath(path_pattern)`, returning the chosen suffix index `b` (the
function returns `path_pattern % b`). -/
def nextPathIdx (occupied : Nat → Bool) (fuel : Nat) : Nat :=
  let i := expSearch occupied fuel 1
  binSearch occupied fuel (i / 2) i

/-- `nextPath(path_pattern)` itself: the path at the chosen suffix. -/
def nextPath (pattern : Nat → String) (occupied : Nat → Bool) (fuel : Nat) : String :=
  pattern (nextPathIdx occupied fuel)

/-! ## YearAssembler / EnsembleScheduler list manipulation -/

/-- The per-year output file name `"{}_{}.nc".format(outfil, yr)` written by
`fullyr`. -/
def yearOutName (outfil yr : String) : String := outfil ++ "_" ++ yr ++ ".nc"

/-- Model of Python `list.sort()` on the collected per-year path strings:
a sort with respect to the total lexicographic order on strings (Python
string comparison is the same codepoint-lexicographic order).  Python's
sort is stable, but on a total order the sorted output is determined by the
multiset alone, so insertion sort is an exact model of the result. -/
def sortStrings (l : List String) : List String := l.insertionSort (· ≤ ·)

/-- Section sizes of `np.array_split` of a length-`n` list into `k` sections:
the first `n % k` sections get `n / k + 1` elements, the rest `n / k`. -/
def splitSizes (n k : Nat) : List Nat :=
  (List.range k).map (fun i => n / k + if i < n % k then 1 else 0)

/-- Cuts a list into consecutive chunks of the given sizes. -/
def takeChunks : List Nat → List α → List (List α)
  | [], _ => []
  | n :: ns, l => l.take n :: takeChunks ns (l.drop n)

/-- `np.array_split(l, k)` (along axis 0). -/
def arraySplit (k : Nat) (l : List α) : List (List α) :=
  takeChunks (splitSizes l.length k) l

/-- The list of per-year paths `singleprocess_rcp` hands to `catdata`: map
`fullyr` over the years in input order, then `yearlist.sort()`. -/
def spYearlist (yrs : List String) (outfil : String) : List String :=
  sortStrings (yrs.map (yearOutName outfil))

/-- The list of per-year paths `multiprocess_rcp` hands to `catdata`:
`locproc = min(len(yrs), procs)`; the iterable is split by
`np.array_split(itterable, len(itterable)/locproc)` (Python float division,
truncated to an integer section count by numpy — `Nat` division here, exact
for these magnitudes); each chunk goes through `pool.map(fullyr, chunk)`,
which returns results in input order; the chunk results are concatenated and
finally sorted. -/
def mpYearlist (yrs : List String) (procs : Nat) (outfil : String) : List String :=
  let locproc := min yrs.length procs
  let chunks := arraySplit (yrs.length / locproc) yrs
  sortStrings ((chunks.map (fun ch => ch.map (yearOutName outfil))).flatten)

/-! ## SeriesMerger (`catdata`) -/

/-- One observable filesystem action of `catdata`. -/
inductive Eff where
  | ncks (inp outp : String)
  | mkdir (d : String)
  | ncrcat (inps : List String) (outp : String)
  | remove (f : String)
deriving DecidableEq, Repr

/-- Whether an effect is a file removal (`os.remove`). -/
def Eff.isRemove : Eff → Bool
  | .remove _ => true
  | _ => false

/-- Python `s[:-3]`, used as `catlist[0][:-3]` to strip the `.nc` suffix
(character-level, like Python slicing). -/
def dropExt3 (s : String) : String :=
  ⟨s.data.take (s.data.length - 3)⟩

/-- `os.path.split(s)[0]`: everything before the last `/`, or `""` when the
string has no `/`. -/
def dirname (s : String) : String :=
  ⟨(((s.data.reverse.dropWhile (fun c => c ≠ '/')).drop 1)).reverse⟩

/-- The SeriesMerger `catdata(catlist, outfil)` over an explicit filesystem
`fs` (the set of existing paths, consulted only by the `os.path.exists(path)`
test on the output's parent directory) and with the success of the external
`ncrcat` operation given by `ncrcatOK` (the external tool is a black box).
Returns the ordered effect list and the outcome.  From the source: `ncks`
rewrites `catlist[0]` with a record time dimension into a `_recdim.nc` copy,
which is inserted at position 1; the parent directory of `outfil + ".nc"` is
created if absent; `ncrcat` concatenates `catlist[1:]` into `outfil + ".nc"`
(no existence test is made on that final path); on success every entry of the
(extended) `catlist` is removed. -/
def catdata (fs : List String) (ncrcatOK : Bool) (catlist : List String)
    (outfil : String) : List Eff × Except String Unit :=
  match catlist with
  | [] => ([], .error "IndexError: list index out of range")
  | c0 :: rest =>
    let recdim := dropExt3 c0 ++ "_recdim.nc"
    let catlist2 := c0 :: recdim :: rest
    let newfile := outfil ++ ".nc"
    let d := dirname newfile
    let effs := [Eff.ncks c0 recdim] ++
      (if fs.contains d then [] else [Eff.mkdir d]) ++
      [Eff.ncrcat (recdim :: rest) newfile]
    if ncrcatOK then
      (effs ++ catlist2.map Eff.remove, .ok ())
    else
      (effs, .error "MergeError: ncrcat failed")

/-! ## Whole-run model (`getyrs` + per-year assembly + merge) -/

/-- One year folder of the input tree: the folder name and the raw tables it
contains, each table identified by its (production-level index,
irrigation-level index) pair — the file name is a fixed function of that pair,
so presence of the pair models presence of the file. -/
abbrev Folder := String × List (Nat × Nat)

/-- The 120 `(prod, irr)` combinations `fullyr` iterates over
(`prod_lst` is 10 long, `irr_lst` 12 long), outer loop over production. -/
def expectedPairs : List (Nat × Nat) :=
  (List.range 10).flatMap (fun p => (List.range 12).map (fun i => (p, i)))

/-- `getyrs(locdir)`: the names of the folders containing at least 120 files,
in walk order.  (A folder with fewer files is not collected.) -/
def getyrs (tree : List Folder) : List String :=
  (tree.filter (fun f => 120 ≤ f.2.length)).map (fun f => f.1)

/-- Effectful map that stops at the first error, modelling the sequential
`for` loops whose body may raise. -/
def mapE (f : α → Except ε β) : List α → Except ε (List β)
  | [] => .ok []
  | a :: as =>
    match f a with
    | .error e => .error e
    | .ok b =>
      match mapE f as with
      | .error e => .error e
      | .ok bs => .ok (b :: bs)

/-- The YearAssembler `fullyr` at the presence/absence level: read the 120
expected raw tables of year `yr` (any missing file makes `pd.read_csv`, hence
`readascii`, raise the `FileError`), and on success write and return the
per-year product path.  Table contents are assumed well-formed here: this
model decides presence of files, which is what `getyrs`/`FileError`
behaviour depends on. -/
def fullyrPresence (tree : List Folder) (outfil : String) (yr : String) :
    Except String String :=
  match tree.find? (fun f => f.1 == yr) with
  | none => .error ("FileError: Error reading file for year " ++ yr)
  | some f =>
    if expectedPairs.all (fun p => f.2.contains p) then
      .ok (yearOutName outfil yr)
    else
      .error ("FileError: Error reading file for year " ++ yr)

/-- The whole run (`main` after argument handling): collect the years with
`getyrs`, assemble each collected year, sort the produced paths, and merge
them with `catdata` (whose `catlist[0]` access raises on an empty list).  On
success, returns the sorted per-year paths and the final artifact path
`outfil ++ ".nc"`. -/
def runModel (tree : List Folder) (outfil : String) :
    Except String (List String × String) :=
  match mapE (fullyrPresence tree outfil) (getyrs tree) with
  | .error e => .error e
  | .ok paths =>
    match sortStrings paths with
    | [] => .error "IndexError: list index out of range"
    | c0 :: rest => .ok (c0 :: rest, outfil ++ ".nc")

/-! ## Concrete fixtures used by witnesses and counterexamples -/

/-- A row with all variable columns equal to `v`. -/
def mkRow (y lat2 lon2 : Int) (v : Rat) : RawRow :=
  ⟨y, lat2, lon2, fun _ => v⟩

/-- Test row at (doubled) coordinates (0, 0), year 1980, values 5. -/
def rowA : RawRow := mkRow 1980 0 0 5

/-- Test row at (doubled) coordinates (1, 2), year 1980, values 7. -/
def rowB : RawRow := mkRow 1980 1 2 7

/-- Test row at (doubled) coordinates (1, 2), year 1980, values -99 (the
reserved sentinel appearing as a genuine data value). -/
def rowN : RawRow := mkRow 1980 1 2 (-99)

/-- A small consistent two-row table with columns V1..V4. -/
def tC1 : RawTable := ⟨[1, 2, 3, 4], [rowA, rowB]⟩

/-- A two-row table whose rows carry different years (1980 and 1981). -/
def tMixed : RawTable := ⟨[1, 2, 3, 4], [mkRow 1980 0 0 5, mkRow 1981 1 2 7]⟩

/-- A consistent two-row table with the full 49 columns V1..V49. -/
def t49 : RawTable := ⟨List.range' 1 49, [rowA, rowB]⟩

/-- A consistent two-row table in which one row's data value is the reserved
sentinel -99. -/
def tNeg : RawTable := ⟨[1, 2, 3, 4], [rowA, rowN]⟩

/-- Input tree with a complete year 1980 and a year 1981 whose folder misses
exactly one of its 120 raw tables (the `(0, 0)` one). -/
def ce3tree : List Folder :=
  [("1980", expectedPairs), ("1981", expectedPairs.tail)]

/-- Input tree with a single complete year folder. -/
def tree3w : List Folder := [("1980", expectedPairs)]

end YearCollator

namespace YearCollator

/-! ## GridAssembler lemmas -/

/-- Cells not targeted by any row keep their previous contents. -/
theorem writeRows_eq_of_not_mem (c : Nat) (s2 w2 : Int) (rows : List RawRow)
    (g : Int × Int → Rat) (p : Int × Int)
    (hp : ∀ x ∈ rows, p ≠ cellPos s2 w2 x) :
    writeRows c s2 w2 rows g p = g p := by
  induction rows generalizing g with
  | nil => rfl
  | cons a as ih =>
    have hp' : ∀ x ∈ as, p ≠ cellPos s2 w2 x :=
      fun x hx => hp x (List.mem_cons_of_mem _ hx)
    have hstep : writeRows c s2 w2 (a :: as) g =
        writeRows c s2 w2 as (fun q => if q = cellPos s2 w2 a then a.val c else g q) := rfl
    rw [hstep, ih _ hp']
    simp only [if_neg (hp a (List.mem_cons_self a as))]

/-- When the rows target pairwise distinct cells, the cell of row `r` ends up
holding exactly `r`'s value. -/
theorem writeRows_eq_of_mem (c : Nat) (s2 w2 : Int) (rows : List RawRow)
    (g : Int × Int → Rat) (r : RawRow) (hr : r ∈ rows)
    (hdist : rows.Pairwise (fun a b => cellPos s2 w2 a ≠ cellPos s2 w2 b)) :
    writeRows c s2 w2 rows g (cellPos s2 w2 r) = r.val c := by
  induction rows generalizing g with
  | nil => cases hr
  | cons a as ih =>
    obtain ⟨hhead, htail⟩ := List.pairwise_cons.mp hdist
    have hstep : writeRows c s2 w2 (a :: as) g =
        writeRows c s2 w2 as (fun q => if q = cellPos s2 w2 a then a.val c else g q) := rfl
    rcases List.mem_cons.mp hr with rfl | hr'
    · rw [hstep, writeRows_eq_of_not_mem c s2 w2 as _ _ hhead]
      simp
    · exact hstep ▸ ih _ hr' htail

/-- Distinct (lat, lon) pairs give distinct mesh cells. -/
theorem cellPos_ne (s2 w2 : Int) (a b : RawRow)
    (h : (a.lat2, a.lon2) ≠ (b.lat2, b.lon2)) :
    cellPos s2 w2 a ≠ cellPos s2 w2 b := by
  simp only [cellPos, ne_eq, Prod.mk.injEq, not_and] at h ⊢
  intro h1 h2
  exact h (by omega) (by omega)

/-- Successful `readascii` output is the per-column cube list of the table. -/
theorem readascii_ok_elim (t : RawTable) (cubes : List Cube)
    (hok : readascii t = .ok cubes) :
    cubes = (t.cols.filter (fun c => 3 < c)).map (mkCube t) := by
  unfold readascii at hok
  split at hok
  · split at hok
    · injection hok with h
      exact h.symm
    · cases hok
  · cases hok

/-- C1: for a raw table whose rows share one year and whose (lat, lon) pairs
are distinct and half-degree-aligned (encoded by the doubled-integer
coordinates), every cube produced by `readascii` holds, at the mesh cell of a
row, exactly that row's value for the cube's column, and every cell not
matched by any row holds the masked missing marker (data `-99`, mask set). -/
theorem readascii_cell_resolution (t : RawTable) (cubes : List Cube)
    (cube : Cube) (r : RawRow) (hok : readascii t = .ok cubes)
    (hc : cube ∈ cubes) (hr : r ∈ t.rows)
    (hdist : t.rows.Pairwise (fun a b => (a.lat2, a.lon2) ≠ (b.lat2, b.lon2))) :
    cube.val (cellPos (minLat2 t.rows) (minLon2 t.rows) r) = r.val cube.colNum ∧
    ∀ p : Int × Int,
      (∀ x ∈ t.rows, p ≠ cellPos (minLat2 t.rows) (minLon2 t.rows) x) →
      cube.val p = -99 ∧ cube.masked p = true := by
  have hcubes := readascii_ok_elim t cubes hok
  subst hcubes
  obtain ⟨c, hcmem, rfl⟩ := List.mem_map.mp hc
  have hdist' : t.rows.Pairwise (fun a b =>
      cellPos (minLat2 t.rows) (minLon2 t.rows) a ≠
      cellPos (minLat2 t.rows) (minLon2 t.rows) b) :=
    hdist.imp (fun h => cellPos_ne _ _ _ _ h)
  refine ⟨?_, ?_⟩
  · exact writeRows_eq_of_mem _ _ _ _ _ _ hr hdist'
  · intro p hp
    have hv : writeRows c (minLat2 t.rows) (minLon2 t.rows) t.rows
        (fun _ => -99) p = -99 :=
      writeRows_eq_of_not_mem _ _ _ _ _ _ hp
    exact ⟨hv, by simp [mkCube, hv]⟩

/-- Witness for C1 at the concrete table `tC1`: the cell of `rowA` holds
`rowA`'s V4 value, and the untouched cell (9, 9) is masked `-99`. -/
theorem readascii_cell_resolution_witness :
    (mkCube tC1 4).val (cellPos (minLat2 tC1.rows) (minLon2 tC1.rows) rowA) =
      rowA.val 4 ∧
    ((mkCube tC1 4).val (9, 9) = -99 ∧ (mkCube tC1 4).masked (9, 9) = true) := by
  have h := readascii_cell_resolution tC1 [mkCube tC1 4] (mkCube tC1 4) rowA rfl
    (List.mem_singleton.mpr rfl) (by simp [tC1]) (by decide)
  exact ⟨h.1, h.2 (9, 9) (by decide)⟩

/-- C2 (code bug): a parseable table mixing two years makes `readascii` raise
`UnboundLocalError` (the local `time` coordinate is assigned only in the
single-year branch but used unconditionally at line 413), so assembly does
not complete after the printed warning. -/
theorem readascii_mixed_years_fails :
    readascii tMixed =
      .error "UnboundLocalError: local variable time referenced before assignment" := rfl

/-- C5 (amended): a successfully parsed raw table with the full 49 columns
yields one cube per column whose number exceeds 3, i.e. exactly 46 cubes
(V4..V49), not 45. -/
theorem readascii_full_table_count (t : RawTable) (cubes : List Cube)
    (hcols : t.cols = List.range' 1 49) (hok : readascii t = .ok cubes) :
    cubes.length = 46 := by
  have h := readascii_ok_elim t cubes hok
  subst h
  rw [List.length_map, hcols]
  decide

/-- Counterexample for C5 as stated: on the concrete full-49-column table
`t49`, `readascii` returns 46 arrays, and 46 is not 45. -/
theorem readascii_full_table_count_ce :
    Except.map List.length (readascii t49) = .ok 46 ∧ (46 : Nat) ≠ 45 :=
  ⟨rfl, by decide⟩

/-- Witness for the amended C5 at the concrete table `t49`. -/
theorem readascii_full_table_count_witness :
    ((t49.cols.filter (fun c => 3 < c)).map (mkCube t49)).length = 46 :=
  readascii_full_table_count t49 _ rfl rfl

/-- C10: a row whose variable value is the reserved sentinel `-99` is stored
masked: its cell carries data `-99` with the mask set, exactly the state of a
cell no row touched, so it is indistinguishable from missing data. -/
theorem readascii_sentinel_value_masked (t : RawTable) (cubes : List Cube)
    (cube : Cube) (r : RawRow) (hok : readascii t = .ok cubes)
    (hc : cube ∈ cubes) (hr : r ∈ t.rows)
    (hdist : t.rows.Pairwise (fun a b => (a.lat2, a.lon2) ≠ (b.lat2, b.lon2)))
    (hval : r.val cube.colNum = -99) :
    cube.val (cellPos (minLat2 t.rows) (minLon2 t.rows) r) = -99 ∧
    cube.masked (cellPos (minLat2 t.rows) (minLon2 t.rows) r) = true ∧
    ∀ p : Int × Int,
      (∀ x ∈ t.rows, p ≠ cellPos (minLat2 t.rows) (minLon2 t.rows) x) →
      cube.val (cellPos (minLat2 t.rows) (minLon2 t.rows) r) = cube.val p ∧
      cube.masked (cellPos (minLat2 t.rows) (minLon2 t.rows) r) = cube.masked p := by
  have hcubes := readascii_ok_elim t cubes hok
  subst hcubes
  obtain ⟨c, hcmem, rfl⟩ := List.mem_map.mp hc
  have hdist' : t.rows.Pairwise (fun a b =>
      cellPos (minLat2 t.rows) (minLon2 t.rows) a ≠
      cellPos (minLat2 t.rows) (minLon2 t.rows) b) :=
    hdist.imp (fun h => cellPos_ne _ _ _ _ h)
  have hcell : writeRows c (minLat2 t.rows) (minLon2 t.rows) t.rows
      (fun _ => -99) (cellPos (minLat2 t.rows) (minLon2 t.rows) r) = -99 :=
    (writeRows_eq_of_mem _ _ _ _ _ _ hr hdist').trans hval
  refine ⟨hcell, by simp [mkCube, hcell], ?_⟩
  intro p hp
  have hv : writeRows c (minLat2 t.rows) (minLon2 t.rows) t.rows
      (fun _ => -99) p = -99 :=
    writeRows_eq_of_not_mem _ _ _ _ _ _ hp
  exact ⟨hcell.trans hv.symm, by simp [mkCube, hcell, hv]⟩

/-- Witness for C10 at the concrete table `tNeg`, whose row `rowN` carries a
genuine `-99` value: its cell is masked and agrees with the untouched cell
(9, 9). -/
theorem readascii_sentinel_value_masked_witness :
    ((mkCube tNeg 4).val (cellPos (minLat2 tNeg.rows) (minLon2 tNeg.rows) rowN) = -99 ∧
     (mkCube tNeg 4).masked (cellPos (minLat2 tNeg.rows) (minLon2 tNeg.rows) rowN) = true) ∧
    ((mkCube tNeg 4).val (cellPos (minLat2 tNeg.rows) (minLon2 tNeg.rows) rowN) =
       (mkCube tNeg 4).val (9, 9) ∧
     (mkCube tNeg 4).masked (cellPos (minLat2 tNeg.rows) (minLon2 tNeg.rows) rowN) =
       (mkCube tNeg 4).masked (9, 9)) := by
  have h := readascii_sentinel_value_masked tNeg [mkCube tNeg 4] (mkCube tNeg 4) rowN rfl
    (List.mem_singleton.mpr rfl) (by simp [tNeg]) (by decide) (by decide)
  exact ⟨⟨h.1, h.2.1⟩, h.2.2 (9, 9) (by decide)⟩

/-! ## nextPath lemmas (C8) -/

/-- The exponential phase, run with enough fuel, stops at a free index that is
either the starting index or has an occupied half. -/
theorem expSearch_spec (N : Nat) (occupied : Nat → Bool)
    (hocc : ∀ k, occupied k = decide (1 ≤ k ∧ k < N)) :
    ∀ fuel i, 1 ≤ i → N ≤ i * 2 ^ fuel →
      occupied (expSearch occupied fuel i) = false ∧
      (expSearch occupied fuel i = i ∨
       occupied (expSearch occupied fuel i / 2) = true) := by
  intro fuel
  induction fuel with
  | zero =>
    intro i hi hN
    have hfree : occupied i = false := by
      rw [hocc]
      simp only [pow_zero, mul_one] at hN
      simp only [decide_eq_false_iff_not, not_and, not_lt]
      omega
    exact ⟨hfree, Or.inl rfl⟩
  | succ f ih =>
    intro i hi hN
    by_cases h : occupied i = true
    · have hstep : expSearch occupied (f + 1) i = expSearch occupied f (i * 2) := by
        show (if occupied i then expSearch occupied f (i * 2) else i) = _
        rw [if_pos h]
      have hN' : N ≤ i * 2 * 2 ^ f := by
        have : i * 2 ^ (f + 1) = i * 2 * 2 ^ f := by ring
        omega
      obtain ⟨h1, h2⟩ := ih (i * 2) (by omega) hN'
      rw [hstep]
      refine ⟨h1, ?_⟩
      rcases h2 with heq | hhalf
      · right
        rw [heq, Nat.mul_div_cancel i (by omega : 0 < 2)]
        exact h
      · right; exact hhalf
    · have hfree : occupied i = false := by
        cases hb : occupied i
        · rfl
        · exact absurd hb h
      have hstep : expSearch occupied (f + 1) i = i := by
        show (if occupied i then expSearch occupied f (i * 2) else i) = _
        rw [if_neg (by simp [hfree])]
      rw [hstep]
      exact ⟨hfree, Or.inl rfl⟩

/-- The binary-search phase returns the boundary `N` whenever the invariant
`a < N ≤ b` holds and the fuel covers the interval width. -/
theorem binSearch_spec (N : Nat) (occupied : Nat → Bool)
    (hocc : ∀ k, occupied k = decide (1 ≤ k ∧ k < N)) :
    ∀ fuel a b, a < N → N ≤ b → b - a ≤ fuel → binSearch occupied fuel a b = N := by
  intro fuel
  induction fuel with
  | zero =>
    intro a b ha hb hf
    exfalso
    omega
  | succ f ih =>
    intro a b ha hb hf
    show (if a + 1 < b then
        let c := (a + b) / 2
        if occupied c then binSearch occupied f c b else binSearch occupied f a c
      else b) = N
    by_cases hab : a + 1 < b
    · rw [if_pos hab]
      show (if occupied ((a + b) / 2) then binSearch occupied f ((a + b) / 2) b
        else binSearch occupied f a ((a + b) / 2)) = N
      have hc_lo : a < (a + b) / 2 := by omega
      have hc_hi : (a + b) / 2 < b := by omega
      by_cases hc : occupied ((a + b) / 2) = true
      · rw [if_pos hc]
        rw [hocc] at hc
        have hc' : 1 ≤ (a + b) / 2 ∧ (a + b) / 2 < N := by simpa using hc
        exact ih _ _ hc'.2 hb (by omega)
      · have hcf : occupied ((a + b) / 2) = false := by
          cases hb' : occupied ((a + b) / 2)
          · rfl
          · exact absurd hb' hc
        rw [if_neg (by simp [hcf])]
        rw [hocc] at hcf
        have hc' : ¬(1 ≤ (a + b) / 2 ∧ (a + b) / 2 < N) := by simpa using hcf
        exact ih _ _ ha (by omega) (by omega)
    · rw [if_neg hab]
      omega

/-- C8: if the existing files are exactly the suffixes 1 through N-1 of the
pattern (the unsuffixed base name having triggered the allocator), `nextPath`
returns the path with suffix N — the smallest positive free suffix.  `fuel`
is any bound of at least `2 * N` on the loop iterations (the real loops
terminate on their own; the needed fuel is logarithmic, and any larger fuel
gives the same value). -/
theorem nextPath_smallest_free (N fuel : Nat) (pattern : Nat → String)
    (occupied : Nat → Bool) (hN : 1 ≤ N)
    (hocc : ∀ k, occupied k = decide (1 ≤ k ∧ k < N))
    (hfuel : 2 * N ≤ fuel) :
    nextPath pattern occupied fuel = pattern N := by
  have h2N : N ≤ 1 * 2 ^ fuel := by
    have h1 : N < 2 ^ N := Nat.lt_two_pow N
    have h2 : (2 : Nat) ^ N ≤ 2 ^ fuel := Nat.pow_le_pow_right (by omega) (by omega)
    omega
  obtain ⟨hfree, hhalf⟩ := expSearch_spec N occupied hocc fuel 1 le_rfl h2N
  rw [hocc] at hfree
  have hfree' : ¬(1 ≤ expSearch occupied fuel 1 ∧ expSearch occupied fuel 1 < N) := by
    simpa using hfree
  have hidx : nextPathIdx occupied fuel = N := by
    show binSearch occupied fuel (expSearch occupied fuel 1 / 2)
      (expSearch occupied fuel 1) = N
    rcases hhalf with heq | hocc2
    · have hN1 : N = 1 := by
        rw [heq] at hfree'
        omega
      rw [heq]
      cases fuel with
      | zero => exfalso; omega
      | succ f =>
        show (if 0 + 1 < 1 then
            let c := (0 + 1) / 2
            if occupied c then binSearch occupied f c 1 else binSearch occupied f 0 c
          else 1) = N
        rw [if_neg (by omega)]
        omega
    · rw [hocc] at hocc2
      have hc : 1 ≤ expSearch occupied fuel 1 / 2 ∧ expSearch occupied fuel 1 / 2 < N := by
        simpa using hocc2
      have hrN : N ≤ expSearch occupied fuel 1 := by omega
      exact binSearch_spec N occupied hocc fuel _ _ hc.2 hrN (by omega)
  show pattern (nextPathIdx occupied fuel) = pattern N
  rw [hidx]

/-- Witness for C8 at N = 5 (existing suffixes 1..4), fuel 10: the allocator
picks suffix 5. -/
theorem nextPath_smallest_free_witness :
    nextPath (fun k => "file-" ++ Nat.repr k ++ ".nc")
      (fun k => decide (1 ≤ k ∧ k < 5)) 10 =
    "file-" ++ Nat.repr 5 ++ ".nc" :=
  nextPath_smallest_free 5 10 (fun k => "file-" ++ Nat.repr k ++ ".nc")
    (fun k => decide (1 ≤ k ∧ k < 5)) (by omega) (fun k => rfl) (by omega)

/-! ## SeriesMerger theorems (C4, C9) -/

/-- C9: when the external concatenation fails, `catdata` aborts before any
deletion: the effect trace contains no file removal, and the call does not
succeed. -/
theorem catdata_no_remove_on_merge_error (fs catlist : List String)
    (outfil : String) :
    ((catdata fs false catlist outfil).1.all (fun e => !e.isRemove)) = true ∧
    (catdata fs false catlist outfil).2 ≠ Except.ok () := by
  cases catlist with
  | nil => exact ⟨rfl, by simp [catdata]⟩
  | cons c0 rest =>
    by_cases hd : fs.contains (dirname (outfil ++ ".nc")) <;>
      simp [catdata, hd, Eff.isRemove]

/-- C4 (amended): `catdata` performs no existence check on the final output
path.  Even when a file already exists at `outfil ++ ".nc"`, it proceeds and
hands exactly that path to the external concatenation as its output
(overwrite-or-not is the external tool's behaviour, not a failure of
`catdata`); it fails only if the external operation fails. -/
theorem catdata_no_collision_check (fs : List String) (c0 : String)
    (rest : List String) (outfil : String)
    (_hexists : (outfil ++ ".nc") ∈ fs) :
    (catdata fs true (c0 :: rest) outfil).2 = .ok () ∧
    Eff.ncrcat ((dropExt3 c0 ++ "_recdim.nc") :: rest) (outfil ++ ".nc") ∈
      (catdata fs true (c0 :: rest) outfil).1 := by
  by_cases hd : fs.contains (dirname (outfil ++ ".nc")) <;>
    simp [catdata, hd]

/-- Counterexample for C4 as stated: with a file already present at the exact
final output path "o/out.nc", `catdata` does not fail — it completes and
invokes the external concatenation with that very path as output. -/
theorem catdata_no_collision_check_ce :
    "o/out.nc" ∈ ["o", "o/out.nc"] ∧
    (catdata ["o", "o/out.nc"] true ["o/out_1980.nc", "o/out_1981.nc"] "o/out").2 =
      .ok () ∧
    Eff.ncrcat ["o/out_1980_recdim.nc", "o/out_1981.nc"] "o/out.nc" ∈
      (catdata ["o", "o/out.nc"] true ["o/out_1980.nc", "o/out_1981.nc"] "o/out").1 := by
  refine ⟨by decide, rfl, by decide⟩

/-- Witness for the amended C4. -/
theorem catdata_no_collision_check_witness :
    ("o/out" ++ ".nc") ∈ ["o", "o/out.nc"] ∧
    ((catdata ["o", "o/out.nc"] true ["o/out_1980.nc"] "o/out").2 = .ok () ∧
     Eff.ncrcat ((dropExt3 "o/out_1980.nc" ++ "_recdim.nc") :: []) ("o/out" ++ ".nc") ∈
       (catdata ["o", "o/out.nc"] true ["o/out_1980.nc"] "o/out").1) :=
  ⟨by decide,
   catdata_no_collision_check ["o", "o/out.nc"] "o/out_1980.nc" [] "o/out" (by decide)⟩

/-! ## Whole-run theorems (C3) -/

/-- When the body succeeds on every element, `mapE` is an ordinary map. -/
theorem mapE_ok {α β ε : Type} (f : α → Except ε β) (g : α → β) :
    ∀ l : List α, (∀ a ∈ l, f a = .ok (g a)) → mapE f l = .ok (l.map g) := by
  intro l
  induction l with
  | nil => intro _; rfl
  | cons a as ih =>
    intro h
    have ha := h a (List.mem_cons_self a as)
    have has := ih (fun x hx => h x (List.mem_cons_of_mem _ hx))
    simp [mapE, ha, has]

/-- A collected year's folder is found and complete, so its assembly
succeeds. -/
theorem fullyrPresence_ok (tree : List Folder) (outfil y : String)
    (hnodup : (tree.map (fun f => f.1)).Nodup)
    (hcomplete : ∀ f ∈ tree, 120 ≤ f.2.length → ∀ p ∈ expectedPairs, p ∈ f.2)
    (hy : y ∈ getyrs tree) :
    fullyrPresence tree outfil y = .ok (yearOutName outfil y) := by
  obtain ⟨g, hgfil, hgy⟩ := List.mem_map.mp hy
  have hgmem := List.mem_filter.mp hgfil
  have hglen : 120 ≤ g.2.length := by simpa using hgmem.2
  unfold fullyrPresence
  cases hfind : tree.find? (fun f => f.1 == y) with
  | none =>
    exfalso
    have := List.find?_eq_none.mp hfind g hgmem.1
    simp [hgy] at this
  | some f =>
    have hfmem : f ∈ tree := List.mem_of_find?_eq_some hfind
    have hfy : f.1 = y := by
      have := List.find?_some hfind
      simpa using this
    have hfg : f = g :=
      List.inj_on_of_nodup_map hnodup hfmem hgmem.1 (hfy.trans hgy.symm)
    have hflen : 120 ≤ f.2.length := hfg ▸ hglen
    have hall : (expectedPairs.all (fun p => f.2.contains p)) = true := by
      rw [List.all_eq_true]
      intro p hp
      have := hcomplete f hfmem hflen p hp
      simpa using this
    simp [hall]
    exact fun a b hab => hcomplete f hfmem hflen (a, b) hab

/-- C3 (amended): a year folder missing raw tables — so that it has fewer
than 120 files — is silently dropped by `getyrs`, and if every folder with
at least 120 files is complete (and at least one is), the whole run succeeds:
no `FileError` is raised and the final merged artifact is produced, covering
exactly the collected years.  A missing raw table aborts the run only when
its year's folder still reaches the 120-file threshold. -/
theorem run_skips_incomplete_years (tree : List Folder) (outfil : String)
    (hnodup : (tree.map (fun f => f.1)).Nodup)
    (hcomplete : ∀ f ∈ tree, 120 ≤ f.2.length → ∀ p ∈ expectedPairs, p ∈ f.2)
    (hsome : ∃ f ∈ tree, 120 ≤ f.2.length) :
    runModel tree outfil =
      .ok (sortStrings ((getyrs tree).map (yearOutName outfil)), outfil ++ ".nc") ∧
    ∀ f ∈ tree, f.2.length < 120 → f.1 ∉ getyrs tree := by
  constructor
  · have hmap := mapE_ok (fullyrPresence tree outfil) (yearOutName outfil)
      (getyrs tree) (fun y hy => fullyrPresence_ok tree outfil y hnodup hcomplete hy)
    have hne : (getyrs tree).map (yearOutName outfil) ≠ [] := by
      obtain ⟨f, hf, hlen⟩ := hsome
      have hmem : f.1 ∈ getyrs tree :=
        List.mem_map.mpr ⟨f, List.mem_filter.mpr ⟨hf, by simpa using hlen⟩, rfl⟩
      intro h
      rw [List.map_eq_nil_iff] at h
      exact (List.ne_nil_of_mem hmem) h
    have hsne : sortStrings ((getyrs tree).map (yearOutName outfil)) ≠ [] := by
      intro h
      have hperm := List.perm_insertionSort (fun a b : String => a ≤ b)
        ((getyrs tree).map (yearOutName outfil))
      rw [sortStrings] at h
      rw [h] at hperm
      exact hne hperm.symm.eq_nil
    obtain ⟨c0, rest, hcase⟩ :
        ∃ c0 rest, sortStrings ((getyrs tree).map (yearOutName outfil)) = c0 :: rest := by
      cases hc : sortStrings ((getyrs tree).map (yearOutName outfil)) with
      | nil => exact absurd hc hsne
      | cons a b => exact ⟨a, b, rfl⟩
    simp [runModel, hmap, hcase]
  · intro f hf hlen hmem
    obtain ⟨g, hgfil, hgy⟩ := List.mem_map.mp hmem
    have hgmem := List.mem_filter.mp hgfil
    have hglen : 120 ≤ g.2.length := by simpa using hgmem.2
    have : g = f := List.inj_on_of_nodup_map hnodup hgmem.1 hf hgy
    rw [this] at hglen
    omega

set_option maxRecDepth 4000 in
/-- Counterexample for C3 as stated: in `ce3tree`, year 1981 misses exactly
one of its 120 raw tables; the run does not fail with a `FileError` — it
succeeds, produces the final artifact, and the 1981 product is simply absent
(the year was silently skipped by `getyrs`). -/
theorem run_missing_file_silently_skips_ce :
    runModel ce3tree "out" = .ok (["out_1980.nc"], "out.nc") ∧
    yearOutName "out" "1981" ∉ ["out_1980.nc"] := by
  exact ⟨rfl, by decide⟩

/-! ## Scheduler theorems (C6, C7) -/

/-- Chunking by sizes that sum to the length flattens back to the list. -/
theorem takeChunks_flatten {α : Type} :
    ∀ (ns : List Nat) (l : List α), ns.sum = l.length →
      (takeChunks ns l).flatten = l := by
  intro ns
  induction ns with
  | nil =>
    intro l h
    simp only [List.sum_nil] at h
    simp [takeChunks, (List.length_eq_zero.mp h.symm).symm]
  | cons n ns ih =>
    intro l h
    simp only [List.sum_cons] at h
    show (l.take n :: takeChunks ns (l.drop n)).flatten = l
    rw [List.flatten_cons, ih (l.drop n) (by rw [List.length_drop]; omega)]
    exact List.take_append_drop n l

/-- The `array_split` section sizes sum to the list length. -/
theorem splitSizes_sum (n k : Nat) (hk : 1 ≤ k) : (splitSizes n k).sum = n := by
  have key : ∀ (m d q : Nat),
      ((List.range m).map (fun i => d + if i < q then 1 else 0)).sum =
        m * d + min m q := by
    intro m d q
    induction m with
    | zero => simp
    | succ m ih =>
      rw [List.range_succ, List.map_append, List.sum_append, ih]
      simp only [List.map_cons, List.map_nil, List.sum_cons, List.sum_nil, add_zero]
      have hsm : (m + 1) * d = m * d + d := by ring
      rw [hsm]
      rcases Nat.lt_or_ge m q with hmq | hmq
      · have e1 : min m q = m := Nat.min_eq_left (by omega)
        have e2 : min (m + 1) q = min (m + 1) q := rfl
        rcases Nat.lt_or_ge (m + 1) q with hmq2 | hmq2
        · have e3 : min (m + 1) q = m + 1 := Nat.min_eq_left (by omega)
          rw [e1, e3, if_pos hmq]
          omega
        · have e3 : min (m + 1) q = q := Nat.min_eq_right (by omega)
          rw [e1, e3, if_pos hmq]
          omega
      · have e1 : min m q = q := Nat.min_eq_right (by omega)
        have e3 : min (m + 1) q = q := Nat.min_eq_right (by omega)
        rw [e1, e3, if_neg (by omega)]
        omega
  rw [splitSizes, key k (n / k) (n % k)]
  have h1 : n % k < k := Nat.mod_lt _ (by omega)
  have h2 : min k (n % k) = n % k := by omega
  rw [h2]
  exact Nat.div_add_mod n k

/-- `np.array_split` partitions the list: flattening restores it. -/
theorem arraySplit_flatten {α : Type} (k : Nat) (l : List α) (hk : 1 ≤ k) :
    (arraySplit k l).flatten = l :=
  takeChunks_flatten _ _ (splitSizes_sum l.length k hk)

/-- Flattening chunked maps is mapping the flattened list. -/
theorem flatten_map_map {α β : Type} (f : α → β) (ll : List (List α)) :
    (ll.map (fun ch => ch.map f)).flatten = ll.flatten.map f := by
  simp

/-- C6: for any positive worker bound, `multiprocess_rcp` hands `catdata` the
very same sorted per-year path list, in the same order, as
`singleprocess_rcp`, so the merge input — and with it the final merged
artifact — is identical for parallel and sequential runs. -/
theorem multiprocess_eq_singleprocess (yrs : List String) (procs : Nat)
    (outfil : String) (hprocs : 1 ≤ procs) :
    mpYearlist yrs procs outfil = spYearlist yrs outfil ∧
    ∀ fs ncrcatOK,
      catdata fs ncrcatOK (mpYearlist yrs procs outfil) outfil =
      catdata fs ncrcatOK (spYearlist yrs outfil) outfil := by
  have hmain : mpYearlist yrs procs outfil = spYearlist yrs outfil := by
    unfold mpYearlist spYearlist
    dsimp only
    congr 1
    rw [flatten_map_map]
    by_cases hy : yrs = []
    · subst hy
      simp [arraySplit, splitSizes, takeChunks]
    · have hlen : 1 ≤ yrs.length := by
        cases yrs with
        | nil => exact absurd rfl hy
        | cons a as => simp
      have hloc : 1 ≤ min yrs.length procs := by omega
      have hsec : 1 ≤ yrs.length / min yrs.length procs :=
        (Nat.one_le_div_iff hloc).mpr (min_le_left _ _)
      rw [arraySplit_flatten _ _ hsec]
  exact ⟨hmain, fun fs ncrcatOK => by rw [hmain]⟩

/-- Witness for C6: three years, worker bound 2. -/
theorem multiprocess_eq_singleprocess_witness :
    mpYearlist ["1981", "1980", "1982"] 2 "out" =
      spYearlist ["1981", "1980", "1982"] "out" :=
  (multiprocess_eq_singleprocess ["1981", "1980", "1982"] 2 "out" (by omega)).1

/-- Appending a common suffix preserves strict lexicographic comparison of
equal-length character lists. -/
theorem lex_append_of_length_eq (s : List Char) {y1 y2 : List Char}
    (h : List.Lex (· < ·) y1 y2) :
    y1.length = y2.length → List.Lex (· < ·) (y1 ++ s) (y2 ++ s) := by
  induction h with
  | nil => intro hl; simp at hl
  | cons h ih =>
    intro hl
    exact List.Lex.cons (ih (by simpa using hl))
  | rel hab =>
    intro _
    exact List.Lex.rel hab

/-- Per-year output paths compare exactly as their (equal-length) year
strings: the common stem and extension do not disturb the string order. -/
theorem yearOutName_lt_iff (outfil y1 y2 : String) (h1 : y1.length = 4)
    (h2 : y2.length = 4) :
    yearOutName outfil y1 < yearOutName outfil y2 ↔ y1 < y2 := by
  have key : ∀ a b : String, a.length = 4 → b.length = 4 → a < b →
      yearOutName outfil a < yearOutName outfil b := by
    intro a b ha hb hab
    rw [String.lt_iff_toList_lt] at hab ⊢
    have hlen : a.toList.length = b.toList.length := by simp [ha, hb]
    have hlex : List.Lex (· < ·) (a.toList ++ ".nc".toList)
        (b.toList ++ ".nc".toList) :=
      lex_append_of_length_eq _ hab hlen
    have happ := List.Lex.append_left (· < ·) hlex (outfil ++ "_").toList
    have hsh : ∀ y : String, (yearOutName outfil y).toList =
        (outfil ++ "_").toList ++ (y.toList ++ ".nc".toList) := by
      intro y
      simp [yearOutName]
    rw [hsh, hsh]
    exact happ
  constructor
  · intro h
    rcases lt_trichotomy y1 y2 with hlt | heq | hgt
    · exact hlt
    · subst heq; exact absurd h (lt_irrefl _)
    · exact absurd h (lt_asymm (key y2 y1 h2 h1 hgt))
  · exact key y1 y2 h1 h2

/-- Weak-order version of `yearOutName_lt_iff`, in the direction
`map_insertionSort` expects. -/
theorem yearOutName_le_iff (outfil y1 y2 : String) (h1 : y1.length = 4)
    (h2 : y2.length = 4) :
    y1 ≤ y2 ↔ yearOutName outfil y1 ≤ yearOutName outfil y2 := by
  rw [← not_lt, ← not_lt, yearOutName_lt_iff outfil y2 y1 h2 h1]

/-- C7: whatever order the workers complete in (any permutation `completed`
of the per-year output paths), the sorted list the scheduler hands to
`catdata` is the year-sorted path list: it equals the paths of the sorted
years, and the year order is monotone. -/
theorem scheduler_handoff_sorted (yrs : List String) (outfil : String)
    (completed : List String)
    (hperm : List.Perm completed (yrs.map (yearOutName outfil)))
    (hlen : ∀ y ∈ yrs, y.length = 4) :
    sortStrings completed =
      (yrs.insertionSort (fun a b => a ≤ b)).map (yearOutName outfil) ∧
    (yrs.insertionSort (fun a b => a ≤ b)).Sorted (fun a b => a ≤ b) := by
  have hmapsort : (yrs.insertionSort (fun a b => a ≤ b)).map (yearOutName outfil) =
      (yrs.map (yearOutName outfil)).insertionSort (fun a b => a ≤ b) :=
    List.map_insertionSort _ _ (yearOutName outfil) yrs
      (fun a ha b hb => yearOutName_le_iff outfil a b (hlen a ha) (hlen b hb))
  refine ⟨?_, List.sorted_insertionSort _ _⟩
  rw [hmapsort]
  unfold sortStrings
  have hs1 : (completed.insertionSort (fun a b : String => a ≤ b)).Sorted
      (fun a b : String => a ≤ b) := List.sorted_insertionSort _ _
  have hs2 : ((yrs.map (yearOutName outfil)).insertionSort
      (fun a b : String => a ≤ b)).Sorted (fun a b : String => a ≤ b) :=
    List.sorted_insertionSort _ _
  exact List.eq_of_perm_of_sorted
    ((List.perm_insertionSort _ _).trans
      (hperm.trans (List.perm_insertionSort _ _).symm)) hs1 hs2

/-- Witness for C7: two years completing in reversed order still yield the
year-sorted handoff list. -/
theorem scheduler_handoff_sorted_witness :
    sortStrings ["out_1980.nc", "out_1981.nc"] =
      (["1981", "1980"].insertionSort (fun a b => a ≤ b)).map (yearOutName "out") ∧
    ((["1981", "1980"] : List String).insertionSort (fun a b => a ≤ b)).Sorted
      (fun a b => a ≤ b) :=
  scheduler_handoff_sorted ["1981", "1980"] "out" ["out_1980.nc", "out_1981.nc"]
    (by decide) (by decide)

set_option maxRecDepth 4000 in
/-- Witness for the amended C3 at the single-complete-year tree `tree3w`. -/
theorem run_skips_incomplete_years_witness :
    runModel tree3w "out" =
      .ok (sortStrings ((getyrs tree3w).map (yearOutName "out")), "out" ++ ".nc") :=
  (run_skips_incomplete_years tree3w "out" (by decide) (by decide)
    ⟨("1980", expectedPairs), by decide, by decide⟩).1

end YearCollator
